import Mathlib

/-!
CounterLimiter (counter_limiter.go): a sequential embedding.

The limiter keeps a local count `N` of permits already debited from the
shared store.  `Take` serves permits from `N` and refills `N` from the store
when it is exhausted; `Wait` polls `Take` every `interval` until a permit is
granted, an error occurs, or the context is done.

Everything outside the package is an input of the model:

* the answers of the redis client (`Ping`, `ScriptExists`, `EvalSha`),
* the decision of `antiDDoSLimiter.Allow()`,
* the clock (`time.Now()`) and the events a `select` observes.

`time.Duration` and `time.Time` are 64-bit counts of nanoseconds, `int` is
64 bits wide; they are embedded as `Int`, with an explicit wrap where the
source can overflow.
-/

namespace Ratelimit

/-! ## Errors and time units -/

/-- The `error` values that flow through the package. -/
inductive Err where
  /-- An error produced by the redis client. -/
  | redis (msg : String)
  /-- The value of `errors.New(msg)`. -/
  | new (msg : String)
  /-- The value of `fmt.Errorf("can't get token before %v", deadline)`. -/
  | errorf (deadline : Int)
  deriving DecidableEq, Repr

/-- The constant `time.Microsecond`, in nanoseconds. -/
def Microsecond : Int := 1000

/-- The constant `time.Millisecond`, in nanoseconds. -/
def Millisecond : Int := 1000000

/-- The constant `time.Second`, in nanoseconds. -/
def Second : Int := 1000000000

/-! ## The limiter -/

/-- The struct `CounterLimiter`.  `limit` and `burst` are the two arguments
`rate.NewLimiter` was called with for `antiDDoSLimiter`; `interval`, `key`
and `scriptSHA1` are the fields of the embedded `BaseRateLimiter`. -/
structure CounterLimiter where
  key : String
  scriptSHA1 : String
  interval : Int
  duration : Int
  throughput : Int
  batchSize : Int
  N : Int
  AntiDDoS : Bool
  limit : Int
  burst : Int
  deriving DecidableEq, Repr

/-- The arguments of one `EvalSha` call. -/
structure EvalShaCall where
  sha : String
  keys : List String
  args : List Int
  deriving DecidableEq, Repr

/-- What the outside world answers during one `Take`: `allow` is the answer
of `antiDDoSLimiter.Allow()` should it be asked, `evalSha` the result of
`EvalSha(...).Result()` should the store be contacted.  The script
`algMap[CounterAlg]` is not among the sources; by the store protocol it
returns a single integer, so a successful result carries an `int64`. -/
structure TakeEnv where
  allow : Bool
  evalSha : Except Err Int

/-- What one `Take` did: the pair `(ok, err)` it returned, whether it asked
the throttle, and the store round trip it made, if any, with its outcome. -/
structure TakeOut where
  ok : Bool
  err : Option Err
  asked : Bool
  call : Option EvalShaCall
  trip : Option (Except Err Int)

/-- The method `WithAntiDDos`. -/
def WithAntiDDos (r : CounterLimiter) (antiDDoS : Bool) : CounterLimiter :=
  { r with AntiDDoS := antiDDoS }

/-- The method `tryTakeFromLocal`: the boolean returned and the limiter
afterwards. -/
def tryTakeFromLocal (r : CounterLimiter) : Bool × CounterLimiter :=
  if r.N > 0 then (true, { r with N := r.N - 1 }) else (false, r)

/-- The request `Take` sends to the store. -/
def evalShaCall (r : CounterLimiter) : EvalShaCall :=
  { sha := r.scriptSHA1, keys := [r.key],
    args := [Int.tdiv r.duration Microsecond, r.throughput, r.batchSize] }

/-- The assignment `r.N = x.(int64)` inside the single-flight function. -/
def setN (r : CounterLimiter) (x : Int) : CounterLimiter :=
  { r with N := x }

/-- The method `Take`, run by one caller at a time (so that `g.Do` runs its
function exactly once, for this caller). -/
def Take (r : CounterLimiter) (env : TakeEnv) : TakeOut × CounterLimiter :=
  if r.AntiDDoS && !env.allow then
    ({ ok := false, err := none, asked := true, call := none, trip := none }, r)
  else
    match tryTakeFromLocal r with
    | (true, r1) =>
      ({ ok := true, err := none, asked := r.AntiDDoS, call := none, trip := none }, r1)
    | (false, r1) =>
      match env.evalSha with
      | .error e =>
        ({ ok := false, err := some e, asked := r.AntiDDoS,
           call := some (evalShaCall r1), trip := some (.error e) }, r1)
      | .ok x =>
        let r3 := tryTakeFromLocal (setN r1 x)
        ({ ok := r3.1, err := none, asked := r.AntiDDoS,
           call := some (evalShaCall r1), trip := some (.ok x) }, r3.2)

/-- The throttle lets a call through: it is disabled, or `Allow()` is true. -/
def passes (r : CounterLimiter) (env : TakeEnv) : Prop :=
  r.AntiDDoS = false ∨ env.allow = true

instance (r : CounterLimiter) (env : TakeEnv) : Decidable (passes r env) := by
  unfold passes; infer_instance

/-! ## `Wait` -/

/-- What one `select` of the polling loop observes: `ctx.Done()` is closed,
or the timer fires (and then `Take` runs against `env`). -/
inductive WaitEvent where
  | done
  | timer (env : TakeEnv)

/-- The outside world during one `Wait`: the answers for the first `Take`,
the result of `ctx.Deadline()` (`none` when the context has no deadline),
the value of `time.Now()` read by the deadline check, and what the
successive `select`s observe. -/
structure WaitEnv where
  first : TakeEnv
  deadline : Option Int
  now : Int
  events : List WaitEvent

/-- One `Take` performed inside a run: the limiter before, what the call
did, the limiter after. -/
structure TakeRec where
  pre : CounterLimiter
  out : TakeOut
  post : CounterLimiter

/-- A run of `Wait`.  `ret = none`: the events ran out while `Wait` was
blocked in `select`; `ret = some none`: it returned `nil`;
`ret = some (some e)`: it returned the error `e`. -/
structure WaitOut where
  ret : Option (Option Err)
  takes : List TakeRec
  final : CounterLimiter

/-- The `for { select { ... } }` loop of `Wait`. -/
def waitLoop (r : CounterLimiter) : List WaitEvent → WaitOut
  | [] => { ret := none, takes := [], final := r }
  | .done :: _ =>
    { ret := some (some (Err.new "context timeout")), takes := [], final := r }
  | .timer env :: rest =>
    let t := Take r env
    match t.1.err with
    | some e => { ret := some (some e), takes := [⟨r, t.1, t.2⟩], final := t.2 }
    | none =>
      if t.1.ok then { ret := some none, takes := [⟨r, t.1, t.2⟩], final := t.2 }
      else
        let o := waitLoop t.2 rest
        { ret := o.ret, takes := ⟨r, t.1, t.2⟩ :: o.takes, final := o.final }

/-- The deadline check between the first `Take` and the loop: the error
`Wait` returns there, if any (`deadline` is `none` when `ctx.Deadline()`
reports no deadline). -/
def deadlineCheck (deadline : Option Int) (now interval : Int) : Option Err :=
  match deadline with
  | some d => if d < now + interval then some (Err.errorf d) else none
  | none => none

/-- The method `Wait`. -/
def Wait (r : CounterLimiter) (env : WaitEnv) : WaitOut :=
  let t := Take r env.first
  match t.1.err with
  | some e => { ret := some (some e), takes := [⟨r, t.1, t.2⟩], final := t.2 }
  | none =>
    if t.1.ok then { ret := some none, takes := [⟨r, t.1, t.2⟩], final := t.2 }
    else
      match deadlineCheck env.deadline env.now t.2.interval with
      | some e => { ret := some (some e), takes := [⟨r, t.1, t.2⟩], final := t.2 }
      | none =>
        let o := waitLoop t.2 env.events
        { ret := o.ret, takes := ⟨r, t.1, t.2⟩ :: o.takes, final := o.final }

/-! ## Runs of calls -/

/-- A call on the limiter. -/
inductive Op where
  | take (env : TakeEnv)
  | wait (env : WaitEnv)
  | withAntiDDos (antiDDoS : Bool)

/-- The limiter values a `Take` passes through after its entry: the value
right after the assignment `r.N = x` when a round trip succeeded, and the
value at return. -/
def takeStates (t : TakeRec) : List CounterLimiter :=
  match t.out.trip with
  | some (.ok x) => [setN t.pre x, t.post]
  | _ => [t.post]

/-- The `Take`s one call performs. -/
def opTakes (r : CounterLimiter) : Op → List TakeRec
  | .take env => [⟨r, (Take r env).1, (Take r env).2⟩]
  | .wait env => (Wait r env).takes
  | .withAntiDDos _ => []

/-- The limiter after one call. -/
def step (r : CounterLimiter) : Op → CounterLimiter
  | .take env => (Take r env).2
  | .wait env => (Wait r env).final
  | .withAntiDDos b => WithAntiDDos r b

/-- The limiter after a sequence of calls. -/
def run (r : CounterLimiter) : List Op → CounterLimiter
  | [] => r
  | op :: ops => run (step r op) ops

/-- Every limiter value reached during a sequence of calls, the initial one
included. -/
def reached (r : CounterLimiter) : List Op → List CounterLimiter
  | [] => [r]
  | op :: ops =>
    r :: ((opTakes r op).flatMap takeStates ++ reached (step r op) ops)

/-- Every `Take` performed during a sequence of calls, in order. -/
def takesOf (r : CounterLimiter) : List Op → List TakeRec
  | [] => []
  | op :: ops => opTakes r op ++ takesOf (step r op) ops

/-- The value a `Take` got from a successful store round trip is
non-negative (nothing is asked of a `Take` without such a round trip). -/
def TakeOut.tripNonneg (t : TakeOut) : Prop :=
  ∀ x, t.trip = some (.ok x) → 0 ≤ x

/-- A sequential run of `Take` calls: what each call did. -/
def takeRun (r : CounterLimiter) : List TakeEnv → List TakeOut
  | [] => []
  | env :: envs => (Take r env).1 :: takeRun (Take r env).2 envs

/-- One stretch of a run of `Take`s: the round trip that opens it (`none`
for the stretch before the first round trip) and the number of calls of the
stretch that returned true, the opening call included. -/
structure Stretch where
  trip : Option (Except Err Int)
  grants : Nat

/-- The number of permits a call returned: 1 for true, 0 for false. -/
def grantOf (t : TakeOut) : Nat := if t.ok then 1 else 0

/-- Cuts a run at its round trips, `cur` being the stretch under way. -/
def stretchesFrom (cur : Stretch) : List TakeOut → List Stretch
  | [] => [cur]
  | t :: ts =>
    match t.trip with
    | some o => cur :: stretchesFrom ⟨some o, grantOf t⟩ ts
    | none => stretchesFrom ⟨cur.trip, cur.grants + grantOf t⟩ ts

/-- The stretches of a run, from one round trip to the next. -/
def stretches (ts : List TakeOut) : List Stretch :=
  stretchesFrom ⟨none, 0⟩ ts

/-- The value the round trip opening a stretch returned; a failed round trip
and the absence of a round trip return nothing, which counts as 0. -/
def Stretch.returned (s : Stretch) : Int :=
  match s.trip with
  | some (.ok x) => x
  | _ => 0

/-- The permits taken from the local count during recorded `Take`s: for each
call, the count the final `tryTakeFromLocal` started from (the store's value
after a refill, the previous count otherwise) minus the count left. -/
def permitsTaken : List TakeRec → Int
  | [] => 0
  | t :: ts =>
    ((match t.out.trip with
      | some (.ok x) => x
      | _ => t.pre.N) - t.post.N) + permitsTaken ts

/-! ## Construction -/

/-- The number of binary digits of `n`, with `fuel` bounding the count. -/
def bitLenAux : Nat → Nat → Nat
  | 0, _ => 0
  | fuel + 1, n => if n = 0 then 0 else bitLenAux fuel (n / 2) + 1

/-- The number of binary digits of `n` (0 for 0). -/
def bitLen (n : Nat) : Nat := bitLenAux n n

/-- The integer nearest to `n / d`, ties going to the even one. -/
def roundHalfEven (n d : Nat) : Nat :=
  if 2 * (n % d) < d then n / d
  else if d < 2 * (n % d) then n / d + 1
  else if (n / d) % 2 = 0 then n / d
  else n / d + 1

/-- A positive `float64` in the normal range: the value `m * 2 ^ e`. -/
structure F64 where
  m : Nat
  e : Int
  deriving DecidableEq, Repr

/-- The exponent `E` with `2 ^ E ≤ n / d < 2 ^ (E + 1)`, for `n, d > 0`. -/
def floorLog2 (n d : Nat) : Int :=
  let t : Int := (bitLen n : Int) - (bitLen d : Int)
  if 0 ≤ t then (if d * 2 ^ t.toNat ≤ n then t else t - 1)
  else (if d ≤ n * 2 ^ (-t).toNat then t else t - 1)

/-- The `float64` nearest to the positive rational `n / d` (53 significant
bits, round to nearest, ties to even), in the normal range. -/
def roundF64 (n d : Nat) : F64 :=
  let s : Int := 52 - floorLog2 n d
  if 0 ≤ s then { m := roundHalfEven (n * 2 ^ s.toNat) d, e := -s }
  else { m := roundHalfEven n (d * 2 ^ (-s).toNat), e := -s }

/-- The quotient `x / y` of two positive `float64`s, correctly rounded. -/
def F64.div (x y : F64) : F64 :=
  if y.e ≤ x.e then roundF64 (x.m * 2 ^ (x.e - y.e).toNat) y.m
  else roundF64 x.m (y.m * 2 ^ (y.e - x.e).toNat)

/-- The integral part of a positive `float64`. -/
def F64.trunc (x : F64) : Nat :=
  if 0 ≤ x.e then x.m * 2 ^ x.e.toNat else x.m / 2 ^ (-x.e).toNat

/-- Reduction of an integer to the range of `int64` (two's complement). -/
def wrap64 (x : Int) : Int :=
  (x + 2 ^ 63) % 2 ^ 64 - 2 ^ 63

/-- The conversion `float64(v)` of an `int`, as the integer it denotes. -/
def f64OfInt (v : Int) : Int :=
  if v = 0 then 0
  else if 0 < v then ((roundF64 v.toNat 1).trunc : Int)
  else -((roundF64 (-v).toNat 1).trunc : Int)

/-- The expression `int(float64(throughput) / float64(duration/time.Second))`
for `throughput > 0` and `duration ≥ 0`.  When `duration/time.Second` is 0 the
quotient is `+Inf`, and when the quotient is `2 ^ 63` or more it does not fit
an `int`: the conversion then yields the implementation-dependent value
`implDep`. -/
def throughputPerSec (implDep : Int) (throughput duration : Int) : Int :=
  let secs := Int.tdiv duration Second
  if secs = 0 then implDep
  else
    let q := ((roundF64 throughput.toNat 1).div (roundF64 secs.toNat 1)).trunc
    if q < 2 ^ 63 then (q : Int) else implDep

/-- The answers of the redis client during construction: the result of
`Ping(ctx).Result()` and the slice `ScriptExists(ctx, sha).Val()`. -/
structure Client where
  ping : Except Err String
  scriptExists : List Bool

/-- How a call of `NewCounterRateLimiter` ends: it returns `(&r, nil)`
(`loaded` tells whether `ScriptLoad` was sent), it returns `(nil, e)`, or it
panics on the index expression `Val()[0]`. -/
inductive Built where
  | limiter (r : CounterLimiter) (loaded : Bool)
  | error (e : Err)
  | indexOutOfRange
  deriving DecidableEq, Repr

/-- The constructor `NewCounterRateLimiter`.  `scriptSHA1` stands for the hex
digest of `algMap[CounterAlg]`, and `implDep` for the result of an
out-of-range conversion from `float64` to `int` on the platform. -/
def NewCounterRateLimiter (implDep : Int) (scriptSHA1 : String) (client : Client)
    (key : String) (duration throughput batchSize : Int) : Built :=
  match client.ping with
  | .error e => .error e
  | .ok _ =>
    if duration < Millisecond then .error (Err.new "duration is too small")
    else if throughput ≤ 0 then .error (Err.new "throughput must greater than 0")
    else if batchSize ≤ 0 then .error (Err.new "batchSize must greater than 0")
    else
      match client.scriptExists with
      | [] => .indexOutOfRange
      | exists0 :: _ =>
        let tps := throughputPerSec implDep throughput duration
        .limiter
          { key := key, scriptSHA1 := scriptSHA1,
            interval := Int.tdiv duration throughput,
            duration := duration, throughput := throughput, batchSize := batchSize,
            N := 0, AntiDDoS := true,
            limit := f64OfInt (wrap64 (tps * 2)), burst := wrap64 (tps * 2) }
          (!exists0)

/-- A recorded `Take` returned `(false, nil)`. -/
def TakeRec.denied (t : TakeRec) : Prop :=
  t.out.ok = false ∧ t.out.err = none

/-- A recorded `Take` returned `(true, nil)`. -/
def TakeRec.granted (t : TakeRec) : Prop :=
  t.out.ok = true ∧ t.out.err = none

/-- The two shapes a run of `Wait` can have: either no `Take` got a permit or
an error and `Wait` did not return `nil`; or every `Take` but the last
returned `(false, nil)` and the last one decided the result. -/
def WaitOut.shaped (o : WaitOut) : Prop :=
  (o.ret ≠ some none ∧ ∀ t ∈ o.takes, t.denied) ∨
  (∃ earlier last, o.takes = earlier ++ [last] ∧ (∀ t ∈ earlier, t.denied) ∧
    ((o.ret = some none ∧ last.granted) ∨
     (∃ e, o.ret = some (some e) ∧ last.out.err = some e)))

/-- The recorded `Take`s are successive calls of `Take` on one limiter: the
first starts from `r`, each starts from the limiter its predecessor left,
and `final` is what the last one left. -/
def linked (r : CounterLimiter) : List TakeRec → CounterLimiter → Prop
  | [], final => final = r
  | t :: ts, final =>
    (∃ env, t.pre = r ∧ t.out = (Take r env).1 ∧ t.post = (Take r env).2) ∧
    linked t.post ts final

/-! ## Sample values -/

/-- A limiter as built for one permit per second in batches of `batch`,
holding `n` local permits, with the anti-overload flag set to `anti`. -/
def sampleLimiter (n : Int) (anti : Bool) (batch : Int) : CounterLimiter :=
  { key := "key:count", scriptSHA1 := "sha", interval := Second,
    duration := Second, throughput := 1, batchSize := batch,
    N := n, AntiDDoS := anti, limit := 2, burst := 2 }

/-- A client that answers `Ping` and reports the script as present. -/
def sampleClient : Client :=
  { ping := .ok "PONG", scriptExists := [true] }

/-! ## Basic facts about `Take` -/

theorem Take_denied (r : CounterLimiter) (env : TakeEnv)
    (hA : r.AntiDDoS = true) (hd : env.allow = false) :
    Take r env =
      ({ ok := false, err := none, asked := true, call := none, trip := none }, r) := by
  simp [Take, hA, hd]

theorem Take_local (r : CounterLimiter) (env : TakeEnv)
    (hp : passes r env) (hN : 0 < r.N) :
    Take r env =
      ({ ok := true, err := none, asked := r.AntiDDoS, call := none, trip := none },
       { r with N := r.N - 1 }) := by
  have hg : ¬ (r.AntiDDoS = true ∧ env.allow = false) := by
    rcases hp with h | h <;> simp [h]
  simp [Take, tryTakeFromLocal, hN, hg]

theorem Take_failed (r : CounterLimiter) (env : TakeEnv) (e : Err)
    (hp : passes r env) (hN : r.N ≤ 0) (hs : env.evalSha = .error e) :
    Take r env =
      ({ ok := false, err := some e, asked := r.AntiDDoS,
         call := some (evalShaCall r), trip := some (.error e) }, r) := by
  have hg : ¬ (r.AntiDDoS = true ∧ env.allow = false) := by
    rcases hp with h | h <;> simp [h]
  have hN2 : ¬ (0 < r.N) := not_lt.mpr hN
  simp [Take, tryTakeFromLocal, hN2, hg, hs]

theorem Take_refill (r : CounterLimiter) (env : TakeEnv) (x : Int)
    (hp : passes r env) (hN : r.N ≤ 0) (hs : env.evalSha = .ok x) :
    Take r env =
      ({ ok := decide (0 < x), err := none, asked := r.AntiDDoS,
         call := some (evalShaCall r), trip := some (.ok x) },
       { r with N := if 0 < x then x - 1 else x }) := by
  have hg : ¬ (r.AntiDDoS = true ∧ env.allow = false) := by
    rcases hp with h | h <;> simp [h]
  have hN2 : ¬ (0 < r.N) := not_lt.mpr hN
  by_cases hx : 0 < x
  · simp [Take, tryTakeFromLocal, setN, hN2, hg, hs, hx, evalShaCall]
  · simp [Take, tryTakeFromLocal, setN, hN2, hg, hs, hx, evalShaCall]


/-! ## The local fast path, the refill and the throttle gate -/

/-- C5: `tryTakeFromLocal` returns true and lowers `N` by exactly 1 when
`N > 0`, and returns false leaving the limiter unchanged when `N ≤ 0`;
consequently a `Take` that the throttle lets through on a limiter with
`N > 0` returns `(true, nil)`, leaves `N` exactly one smaller (nothing else
changes) and makes no store round trip. -/
theorem C5_local_fast_path (r : CounterLimiter) (env : TakeEnv) :
    (0 < r.N → tryTakeFromLocal r = (true, { r with N := r.N - 1 })) ∧
    (r.N ≤ 0 → tryTakeFromLocal r = (false, r)) ∧
    (passes r env → 0 < r.N →
      (Take r env).1.ok = true ∧ (Take r env).1.err = none ∧
      (Take r env).2 = { r with N := r.N - 1 } ∧
      (Take r env).1.call = none ∧ (Take r env).1.trip = none) := by
  refine ⟨fun h => ?_, fun h => ?_, fun hp hN => ?_⟩
  · simp [tryTakeFromLocal, h]
  · simp [tryTakeFromLocal, not_lt.mpr h]
  · rw [Take_local r env hp hN]
    exact ⟨rfl, rfl, rfl, rfl, rfl⟩

/-- C5 at a limiter holding 3 permits, and one holding none. -/
theorem C5_local_fast_path_witness :
    tryTakeFromLocal (sampleLimiter 3 true 2) = (true, sampleLimiter 2 true 2) ∧
    tryTakeFromLocal (sampleLimiter 0 true 2) = (false, sampleLimiter 0 true 2) ∧
    (Take (sampleLimiter 3 true 2) ⟨true, .ok 5⟩).1.ok = true ∧
    (Take (sampleLimiter 3 true 2) ⟨true, .ok 5⟩).2 = sampleLimiter 2 true 2 :=
  ⟨(C5_local_fast_path (sampleLimiter 3 true 2) ⟨true, .ok 5⟩).1 (by decide),
   (C5_local_fast_path (sampleLimiter 0 true 2) ⟨true, .ok 5⟩).2.1 (by decide),
   ((C5_local_fast_path (sampleLimiter 3 true 2) ⟨true, .ok 5⟩).2.2
      (by decide) (by decide)).1,
   ((C5_local_fast_path (sampleLimiter 3 true 2) ⟨true, .ok 5⟩).2.2
      (by decide) (by decide)).2.2.1⟩

/-- C2: when the throttle lets the call through and the local count is not
positive, a successful round trip returning `x` makes `Take` return
`(x > 0, nil)` and leaves `N = x - 1` when `x > 0` and `N = x` when `x ≤ 0`
(no other field changes), whatever `N` was before; a round trip returning 0
yields `(false, nil)`. -/
theorem C2_refill_replaces_then_takes (r : CounterLimiter) (env : TakeEnv) (x : Int)
    (hp : passes r env) (hN : r.N ≤ 0) (hs : env.evalSha = .ok x) :
    (Take r env).1.ok = decide (0 < x) ∧ (Take r env).1.err = none ∧
    (Take r env).2 = { r with N := if 0 < x then x - 1 else x } ∧
    (Take r env).1.trip = some (.ok x) ∧
    (x = 0 → (Take r env).1.ok = false ∧ (Take r env).1.err = none) := by
  rw [Take_refill r env x hp hN hs]
  refine ⟨rfl, rfl, rfl, rfl, fun h => ?_⟩
  subst h
  exact ⟨by simp, rfl⟩

/-- C2 at an empty limiter refilled with 2 permits. -/
theorem C2_refill_replaces_then_takes_witness :
    (Take (sampleLimiter (-4) true 2) ⟨true, .ok 2⟩).1.ok = decide ((0 : Int) < 2) ∧
    (Take (sampleLimiter (-4) true 2) ⟨true, .ok 2⟩).2.N = 1 :=
  have h := C2_refill_replaces_then_takes (sampleLimiter (-4) true 2) ⟨true, .ok 2⟩ 2
    (by decide) (by decide) rfl
  ⟨h.1, by rw [h.2.2.1]; decide⟩

/-- C3: `Take` returns a non-nil error exactly when it made the store round
trip and the round trip failed; it then returns `(false, e)` with `e` the
round trip's own error and leaves the limiter as it was.  A throttle denial,
a local grant and a successful round trip return a nil error. -/
theorem C3_error_iff_round_trip_failed (r : CounterLimiter) (env : TakeEnv) (e : Err) :
    ((Take r env).1.err = some e ↔
      ((Take r env).1.call ≠ none ∧ env.evalSha = .error e)) ∧
    ((Take r env).1.err = some e →
      (Take r env).1.ok = false ∧ (Take r env).1.trip = some (.error e) ∧
      (Take r env).2 = r) ∧
    ((Take r env).1.call = none → (Take r env).1.err = none) ∧
    (∀ x, env.evalSha = .ok x → (Take r env).1.err = none) := by
  by_cases hp : passes r env
  · by_cases hN : 0 < r.N
    · rw [Take_local r env hp hN]
      simp
    · have hN2 : r.N ≤ 0 := not_lt.mp hN
      cases hs : env.evalSha with
      | error e2 =>
        rw [Take_failed r env e2 hp hN2 hs]
        refine ⟨?_, ?_, ?_, ?_⟩
        · simp
        · intro h
          simp at h
          subst h
          exact ⟨rfl, rfl, rfl⟩
        · simp
        · intro x hx; cases hx
      | ok x =>
        rw [Take_refill r env x hp hN2 hs]
        simp
  · have hA : r.AntiDDoS = true := by
      by_contra h; exact hp (Or.inl (by simpa using h))
    have hd : env.allow = false := by
      by_contra h; exact hp (Or.inr (by simpa using h))
    rw [Take_denied r env hA hd]
    simp

/-- C3 at an empty limiter whose round trip fails. -/
theorem C3_error_iff_round_trip_failed_witness :
    (Take (sampleLimiter 0 true 2) ⟨true, .error (Err.redis "EOF")⟩).1.ok = false ∧
    (Take (sampleLimiter 0 true 2) ⟨true, .error (Err.redis "EOF")⟩).2
      = sampleLimiter 0 true 2 :=
  have h := (C3_error_iff_round_trip_failed (sampleLimiter 0 true 2)
    ⟨true, .error (Err.redis "EOF")⟩ (Err.redis "EOF")).2.1 (by decide)
  ⟨h.1, h.2.2⟩

/-- C4: with the anti-overload flag enabled, a denial by `Allow()` makes
`Take` return `(false, nil)` with no store round trip and the limiter
unchanged, whatever `N` is; with the flag disabled by `WithAntiDDos(false)`
the throttle is not asked and nothing `Take` returns or leaves behind depends
on what it would have answered. -/
theorem C4_throttle_gate (r : CounterLimiter) (env env2 : TakeEnv) :
    (r.AntiDDoS = true → env.allow = false →
      (Take r env).1.ok = false ∧ (Take r env).1.err = none ∧
      (Take r env).1.call = none ∧ (Take r env).1.trip = none ∧
      (Take r env).2 = r) ∧
    (env.evalSha = env2.evalSha →
      Take (WithAntiDDos r false) env = Take (WithAntiDDos r false) env2 ∧
      (Take (WithAntiDDos r false) env).1.asked = false) := by
  refine ⟨fun hA hd => ?_, fun h => ?_⟩
  · rw [Take_denied r env hA hd]
    exact ⟨rfl, rfl, rfl, rfl, rfl⟩
  · constructor
    · simp only [Take, WithAntiDDos, h]
      simp
    · simp only [Take, WithAntiDDos]
      simp
      split
      · rfl
      · split <;> rfl

/-- C4 at a limiter holding 3 permits whose throttle denies, and at the same
limiter with the flag switched off. -/
theorem C4_throttle_gate_witness :
    ((Take (sampleLimiter 3 true 2) ⟨false, .ok 5⟩).1.ok = false ∧
     (Take (sampleLimiter 3 true 2) ⟨false, .ok 5⟩).2 = sampleLimiter 3 true 2) ∧
    Take (WithAntiDDos (sampleLimiter 3 true 2) false) ⟨false, .ok 5⟩
      = Take (WithAntiDDos (sampleLimiter 3 true 2) false) ⟨true, .ok 5⟩ :=
  ⟨have h := (C4_throttle_gate (sampleLimiter 3 true 2) ⟨false, .ok 5⟩ ⟨true, .ok 5⟩).1
      (by decide) (by decide)
   ⟨h.1, h.2.2.2.2⟩,
   ((C4_throttle_gate (sampleLimiter 3 true 2) ⟨false, .ok 5⟩ ⟨true, .ok 5⟩).2 rfl).1⟩

/-! ## Construction -/

theorem NewCounterRateLimiter_ping_failed (implDep : Int) (sha : String) (client : Client)
    (key : String) (duration throughput batchSize : Int) (e : Err)
    (hp : client.ping = .error e) :
    NewCounterRateLimiter implDep sha client key duration throughput batchSize
      = .error e := by
  simp [NewCounterRateLimiter, hp]

theorem NewCounterRateLimiter_error_iff (implDep : Int) (sha : String) (client : Client)
    (key : String) (duration throughput batchSize : Int) (pong : String)
    (hp : client.ping = .ok pong) :
    (∃ e, NewCounterRateLimiter implDep sha client key duration throughput batchSize
      = .error e) ↔ (duration < Millisecond ∨ throughput ≤ 0 ∨ batchSize ≤ 0) := by
  simp only [NewCounterRateLimiter, hp]
  by_cases h1 : duration < Millisecond
  · simp [h1]
  · by_cases h2 : throughput ≤ 0
    · simp [h1, h2]
    · by_cases h3 : batchSize ≤ 0
      · simp [h1, h2, h3]
      · cases hse : client.scriptExists <;> simp [h1, h2, h3]

theorem NewCounterRateLimiter_ok (implDep : Int) (sha : String) (client : Client)
    (key : String) (duration throughput batchSize : Int) (pong : String)
    (hp : client.ping = .ok pong) (h1 : Millisecond ≤ duration)
    (h2 : 0 < throughput) (h3 : 0 < batchSize) (exists0 : Bool) (more : List Bool)
    (hse : client.scriptExists = exists0 :: more) :
    NewCounterRateLimiter implDep sha client key duration throughput batchSize
      = .limiter
          { key := key, scriptSHA1 := sha, interval := Int.tdiv duration throughput,
            duration := duration, throughput := throughput, batchSize := batchSize,
            N := 0, AntiDDoS := true,
            limit := f64OfInt (wrap64 (throughputPerSec implDep throughput duration * 2)),
            burst := wrap64 (throughputPerSec implDep throughput duration * 2) }
          (!exists0) := by
  simp [NewCounterRateLimiter, hp, not_lt.mpr h1, not_le.mpr h2, not_le.mpr h3, hse]

theorem NewCounterRateLimiter_fresh (implDep : Int) (sha : String) (client : Client)
    (key : String) (duration throughput batchSize : Int) (r : CounterLimiter)
    (loaded : Bool)
    (h : NewCounterRateLimiter implDep sha client key duration throughput batchSize
      = .limiter r loaded) :
    r.N = 0 ∧ r.batchSize = batchSize ∧ 0 < batchSize := by
  simp only [NewCounterRateLimiter] at h
  split at h
  · cases h
  · split at h
    · cases h
    · split at h
      · cases h
      · split at h
        · cases h
        · rename_i h3
          split at h
          · cases h
          · injection h with h _
            subst h
            exact ⟨rfl, rfl, not_le.mp h3⟩

/-! ## The `float64` arithmetic of the throttle -/

theorem bitLenAux_zero (fuel : Nat) : bitLenAux fuel 0 = 0 := by
  cases fuel <;> simp [bitLenAux]

theorem bitLenAux_spec (fuel : Nat) :
    ∀ n, n ≤ fuel → 0 < n →
      0 < bitLenAux fuel n ∧ 2 ^ (bitLenAux fuel n - 1) ≤ n ∧ n < 2 ^ bitLenAux fuel n := by
  induction fuel with
  | zero => intro n h1 h2; omega
  | succ fuel ih =>
    intro n h1 h2
    have hn : n ≠ 0 := by omega
    simp only [bitLenAux, hn, if_false]
    by_cases h : n / 2 = 0
    · have h1 : n = 1 := by omega
      subst h1
      simp [bitLenAux_zero]
    · obtain ⟨hpos, hlo, hhi⟩ := ih (n / 2) (by omega) (by omega)
      refine ⟨by omega, ?_, ?_⟩
      · have hp : 2 ^ (bitLenAux fuel (n / 2) + 1 - 1)
            = 2 * 2 ^ (bitLenAux fuel (n / 2) - 1) := by
          rw [Nat.add_sub_cancel, ← pow_succ']
          congr 1
          omega
        rw [hp]
        omega
      · rw [pow_succ]
        omega

theorem bitLen_spec (n : Nat) (h : 0 < n) :
    0 < bitLen n ∧ 2 ^ (bitLen n - 1) ≤ n ∧ n < 2 ^ bitLen n :=
  bitLenAux_spec n n (le_refl n) h

theorem div_succ_eq (k P Q d r e R : Nat) (hd : d = r + e)
    (hN : Q * d + R = (d * k + r) * P) (hR : d ≤ 2 * R) (hRd : R < d)
    (hcond : d < e * (2 * P)) (hQ : Q / P = k) : (Q + 1) / P = k := by
  have hlt : Q + 1 < (k + 1) * P := by
    by_contra hcontra
    have h1 : (k + 1) * P ≤ Q + 1 := not_lt.mp hcontra
    have h2 : (k + 1) * P * d ≤ (Q + 1) * d := Nat.mul_le_mul_right d h1
    subst hd
    nlinarith
  have hge : k * P ≤ Q + 1 := by
    have := Nat.div_mul_le_self Q P
    rw [hQ] at this
    omega
  apply Nat.div_eq_of_lt_le
  · exact hge
  · exact hlt

theorem roundHalfEven_div (n d S : Nat) (hd : 0 < d)
    (h : d < (d - n % d) * 2 ^ (S + 1)) :
    roundHalfEven (n * 2 ^ S) d / 2 ^ S = n / d := by
  have hP : 0 < 2 ^ S := Nat.pow_pos (by norm_num)
  have hQ : n * 2 ^ S / d / 2 ^ S = n / d := by
    rw [Nat.div_div_eq_div_mul, Nat.mul_div_mul_right _ _ hP]
  have hr : n % d < d := Nat.mod_lt _ hd
  have hR : n * 2 ^ S % d < d := Nat.mod_lt _ hd
  have hsucc : d ≤ 2 * (n * 2 ^ S % d) → (n * 2 ^ S / d + 1) / 2 ^ S = n / d := by
    intro h2
    refine div_succ_eq (n / d) (2 ^ S) (n * 2 ^ S / d) d (n % d) (d - n % d)
      (n * 2 ^ S % d) (by omega) ?_ h2 hR ?_ hQ
    · rw [Nat.div_add_mod n d, mul_comm (n * 2 ^ S / d) d, Nat.div_add_mod]
    · rw [pow_succ] at h
      rw [mul_comm 2 (2 ^ S)]
      exact h
  unfold roundHalfEven
  split
  · exact hQ
  · split
    · exact hsucc (by omega)
    · split
      · exact hQ
      · exact hsucc (by omega)

theorem floorLog2_lower (n d : Nat) (hn : 0 < n) (hd : 0 < d) :
    d * 2 ^ (floorLog2 n d).toNat ≤ n * 2 ^ (-(floorLog2 n d)).toNat := by
  obtain ⟨hnpos, hnlo, _⟩ := bitLen_spec n hn
  obtain ⟨hdpos, _, hdhi⟩ := bitLen_spec d hd
  unfold floorLog2
  simp only
  by_cases ht : (0 : Int) ≤ (bitLen n : Int) - (bitLen d : Int)
  · rw [if_pos ht]
    by_cases hc : d * 2 ^ ((bitLen n : Int) - (bitLen d : Int)).toNat ≤ n
    · rw [if_pos hc]
      have h0 : (-((bitLen n : Int) - (bitLen d : Int))).toNat = 0 := by omega
      rw [h0]
      simpa using hc
    · rw [if_neg hc]
      by_cases heq : bitLen n = bitLen d
      · have h1 : ((bitLen n : Int) - (bitLen d : Int) - 1).toNat = 0 := by omega
        have h2 : (-((bitLen n : Int) - (bitLen d : Int) - 1)).toNat = 1 := by omega
        rw [h1, h2]
        have h3 : 2 ^ bitLen d = 2 * 2 ^ (bitLen d - 1) := by
          rw [← pow_succ']
          congr 1
          omega
        rw [heq] at hnlo
        omega
      · have h1 : ((bitLen n : Int) - (bitLen d : Int) - 1).toNat
            = bitLen n - bitLen d - 1 := by omega
        have h2 : (-((bitLen n : Int) - (bitLen d : Int) - 1)).toNat = 0 := by omega
        rw [h1, h2]
        have h3 : 2 ^ (bitLen n - 1) = 2 ^ bitLen d * 2 ^ (bitLen n - bitLen d - 1) := by
          rw [← pow_add]
          congr 1
          omega
        have h4 : d * 2 ^ (bitLen n - bitLen d - 1)
            ≤ 2 ^ bitLen d * 2 ^ (bitLen n - bitLen d - 1) :=
          Nat.mul_le_mul_right _ (le_of_lt hdhi)
        rw [← h3] at h4
        simp only [pow_zero, mul_one]
        exact le_trans h4 hnlo
  · rw [if_neg ht]
    by_cases hc : d ≤ n * 2 ^ (-((bitLen n : Int) - (bitLen d : Int))).toNat
    · rw [if_pos hc]
      have h0 : ((bitLen n : Int) - (bitLen d : Int)).toNat = 0 := by omega
      rw [h0]
      simpa using hc
    · rw [if_neg hc]
      have h1 : ((bitLen n : Int) - (bitLen d : Int) - 1).toNat = 0 := by omega
      have h2 : (-((bitLen n : Int) - (bitLen d : Int) - 1)).toNat
          = bitLen d - bitLen n + 1 := by omega
      rw [h1, h2]
      have h3 : 2 ^ bitLen d = 2 ^ (bitLen n - 1) * 2 ^ (bitLen d - bitLen n + 1) := by
        rw [← pow_add]
        congr 1
        omega
      have h4 : 2 ^ (bitLen n - 1) * 2 ^ (bitLen d - bitLen n + 1)
          ≤ n * 2 ^ (bitLen d - bitLen n + 1) :=
        Nat.mul_le_mul_right _ hnlo
      rw [← h3] at h4
      simp only [pow_zero, mul_one]
      exact le_trans (le_of_lt hdhi) h4

theorem roundF64_trunc (a b c : Nat) (ha : a < 2 ^ 53) (hb : 0 < b) (hc : 0 < c)
    (hab : 0 < a) :
    (roundF64 (a * c) (b * c)).trunc = a / b := by
  have hn : 0 < a * c := Nat.mul_pos hab hc
  have hd : 0 < b * c := Nat.mul_pos hb hc
  have hlow := floorLog2_lower (a * c) (b * c) hn hd
  have hkey : floorLog2 (a * c) (b * c) ≤ 52 ∧
      b < 2 ^ ((52 - floorLog2 (a * c) (b * c)).toNat + 1) := by
    by_cases hE : 0 ≤ floorLog2 (a * c) (b * c)
    · have h0 : (-(floorLog2 (a * c) (b * c))).toNat = 0 := by omega
      rw [h0, pow_zero, mul_one] at hlow
      have h1 : b * 2 ^ (floorLog2 (a * c) (b * c)).toNat ≤ a := by
        have : b * 2 ^ (floorLog2 (a * c) (b * c)).toNat * c ≤ a * c := by
          calc b * 2 ^ (floorLog2 (a * c) (b * c)).toNat * c
              = b * c * 2 ^ (floorLog2 (a * c) (b * c)).toNat := by ring
            _ ≤ a * c := hlow
        exact Nat.le_of_mul_le_mul_right this hc
      have h2 : 2 ^ (floorLog2 (a * c) (b * c)).toNat < 2 ^ 53 := by
        calc 2 ^ (floorLog2 (a * c) (b * c)).toNat
            ≤ b * 2 ^ (floorLog2 (a * c) (b * c)).toNat := Nat.le_mul_of_pos_left _ hb
          _ ≤ a := h1
          _ < 2 ^ 53 := ha
      have h3 : (floorLog2 (a * c) (b * c)).toNat < 53 :=
        (Nat.pow_lt_pow_iff_right (by norm_num)).mp h2
      refine ⟨by omega, ?_⟩
      have h4 : (52 - floorLog2 (a * c) (b * c)).toNat + 1
          = 53 - (floorLog2 (a * c) (b * c)).toNat := by omega
      rw [h4]
      have h5 : 2 ^ 53 = 2 ^ (53 - (floorLog2 (a * c) (b * c)).toNat)
          * 2 ^ (floorLog2 (a * c) (b * c)).toNat := by
        rw [← pow_add]
        congr 1
        omega
      have h6 : b * 2 ^ (floorLog2 (a * c) (b * c)).toNat
          < 2 ^ (53 - (floorLog2 (a * c) (b * c)).toNat)
            * 2 ^ (floorLog2 (a * c) (b * c)).toNat := by
        rw [← h5]
        exact lt_of_le_of_lt h1 ha
      exact Nat.lt_of_mul_lt_mul_right h6
    · have h0 : (floorLog2 (a * c) (b * c)).toNat = 0 := by omega
      rw [h0, pow_zero, mul_one] at hlow
      refine ⟨by omega, ?_⟩
      have h1 : b ≤ a * 2 ^ (-(floorLog2 (a * c) (b * c))).toNat := by
        have : b * c ≤ a * 2 ^ (-(floorLog2 (a * c) (b * c))).toNat * c := by
          calc b * c ≤ a * c * 2 ^ (-(floorLog2 (a * c) (b * c))).toNat := hlow
            _ = a * 2 ^ (-(floorLog2 (a * c) (b * c))).toNat * c := by ring
        exact Nat.le_of_mul_le_mul_right this hc
      have h4 : (52 - floorLog2 (a * c) (b * c)).toNat + 1
          = 53 + (-(floorLog2 (a * c) (b * c))).toNat := by omega
      rw [h4, pow_add]
      calc b ≤ a * 2 ^ (-(floorLog2 (a * c) (b * c))).toNat := h1
        _ < 2 ^ 53 * 2 ^ (-(floorLog2 (a * c) (b * c))).toNat :=
          Nat.mul_lt_mul_of_pos_right ha (Nat.pow_pos (by norm_num))
  obtain ⟨hE, hb2⟩ := hkey
  have hs : (0 : Int) ≤ 52 - floorLog2 (a * c) (b * c) := by omega
  have hcond : b * c < (b * c - a * c % (b * c))
      * 2 ^ ((52 - floorLog2 (a * c) (b * c)).toNat + 1) := by
    rw [Nat.mul_mod_mul_right, ← Nat.sub_mul]
    have h1 : 0 < b - a % b := Nat.sub_pos_of_lt (Nat.mod_lt _ hb)
    calc b * c < 2 ^ ((52 - floorLog2 (a * c) (b * c)).toNat + 1) * c :=
          Nat.mul_lt_mul_of_pos_right hb2 hc
      _ = 1 * c * 2 ^ ((52 - floorLog2 (a * c) (b * c)).toNat + 1) := by ring
      _ ≤ (b - a % b) * c * 2 ^ ((52 - floorLog2 (a * c) (b * c)).toNat + 1) :=
          Nat.mul_le_mul_right _ (Nat.mul_le_mul_right _ h1)
  have hround := roundHalfEven_div (a * c) (b * c)
    (52 - floorLog2 (a * c) (b * c)).toNat hd hcond
  rw [Nat.mul_div_mul_right _ _ hc] at hround
  unfold roundF64 F64.trunc
  simp only [if_pos hs]
  by_cases h0 : (0 : Int) ≤ -(52 - floorLog2 (a * c) (b * c))
  · rw [if_pos h0]
    have hz : (52 - floorLog2 (a * c) (b * c)).toNat = 0 := by omega
    have hz2 : (-(52 - floorLog2 (a * c) (b * c))).toNat = 0 := by omega
    rw [hz] at hround
    rw [hz, hz2]
    simpa using hround
  · rw [if_neg h0]
    have hz : (- -(52 - floorLog2 (a * c) (b * c))).toNat
        = (52 - floorLog2 (a * c) (b * c)).toNat := by omega
    rw [hz]
    exact hround

theorem roundHalfEven_one (n : Nat) : roundHalfEven n 1 = n := by
  simp [roundHalfEven, Nat.mod_one]

theorem bitLen_one : bitLen 1 = 1 := by decide

theorem bitLen_le_53 (n : Nat) (hn : 0 < n) (h : n < 2 ^ 53) : bitLen n ≤ 53 := by
  obtain ⟨_, hlo, _⟩ := bitLen_spec n hn
  have h2 : 2 ^ (bitLen n - 1) < 2 ^ 53 := lt_of_le_of_lt hlo h
  have h3 : bitLen n - 1 < 53 := (Nat.pow_lt_pow_iff_right (by norm_num)).mp h2
  omega

/-- An integer below `2 ^ 53` converts to `float64` without rounding. -/
theorem roundF64_exact (n : Nat) (hn : 0 < n) (h : n < 2 ^ 53) :
    roundF64 n 1 = { m := n * 2 ^ (53 - bitLen n), e := -((53 - bitLen n : Nat) : Int) } := by
  obtain ⟨hpos, hlo, _⟩ := bitLen_spec n hn
  have hle := bitLen_le_53 n hn h
  have hfl : floorLog2 n 1 = (bitLen n : Int) - 1 := by
    unfold floorLog2
    simp only [bitLen_one]
    have ht : (0 : Int) ≤ (bitLen n : Int) - ((1 : Nat) : Int) := by omega
    rw [if_pos ht]
    have h1 : ((bitLen n : Int) - ((1 : Nat) : Int)).toNat = bitLen n - 1 := by omega
    rw [h1, one_mul, if_pos hlo]
    simp
  unfold roundF64
  simp only [hfl]
  have hs : (0 : Int) ≤ 52 - ((bitLen n : Int) - 1) := by omega
  rw [if_pos hs, roundHalfEven_one]
  have h2 : (52 - ((bitLen n : Int) - 1)).toNat = 53 - bitLen n := by omega
  rw [h2]
  congr 1
  omega

theorem F64_div_trunc (a b : Nat) (ha : 0 < a) (ha2 : a < 2 ^ 53)
    (hb : 0 < b) (hb2 : b < 2 ^ 53) :
    ((roundF64 a 1).div (roundF64 b 1)).trunc = a / b := by
  rw [roundF64_exact a ha ha2, roundF64_exact b hb hb2]
  have hla := bitLen_le_53 a ha ha2
  have hlb := bitLen_le_53 b hb hb2
  unfold F64.div
  simp only
  by_cases hle : -((53 - bitLen b : Nat) : Int) ≤ -((53 - bitLen a : Nat) : Int)
  · rw [if_pos hle]
    have h1 : (-((53 - bitLen a : Nat) : Int) - -((53 - bitLen b : Nat) : Int)).toNat
        = bitLen a - bitLen b := by omega
    rw [h1, mul_assoc, ← pow_add]
    have h2 : 53 - bitLen a + (bitLen a - bitLen b) = 53 - bitLen b := by omega
    rw [h2]
    exact roundF64_trunc a b (2 ^ (53 - bitLen b)) ha2 hb (Nat.pow_pos (by norm_num)) ha
  · rw [if_neg hle]
    have h1 : (-((53 - bitLen b : Nat) : Int) - -((53 - bitLen a : Nat) : Int)).toNat
        = bitLen b - bitLen a := by omega
    rw [h1, mul_assoc, ← pow_add]
    have h2 : 53 - bitLen b + (bitLen b - bitLen a) = 53 - bitLen a := by omega
    rw [h2]
    exact roundF64_trunc a b (2 ^ (53 - bitLen a)) ha2 hb (Nat.pow_pos (by norm_num)) ha

theorem f64OfInt_exact (v : Int) (h0 : 0 ≤ v) (h : v < 2 ^ 53) : f64OfInt v = v := by
  unfold f64OfInt
  by_cases hz : v = 0
  · simp [hz]
  · have hpos : 0 < v := by omega
    rw [if_neg hz, if_pos hpos]
    have hn : 0 < v.toNat := by omega
    have hn2 : v.toNat < 2 ^ 53 := by omega
    have := roundF64_trunc v.toNat 1 1 hn2 (by norm_num) (by norm_num) hn
    simp only [mul_one, Nat.div_one] at this
    rw [this]
    omega

theorem wrap64_id (x : Int) (h0 : 0 ≤ x) (h : x < 2 ^ 63) : wrap64 x = x := by
  unfold wrap64
  omega

/-- What the throttle expression computes when `throughput` is below
`2 ^ 53` and `duration` is at least one second: the integer quotient of
`throughput` by the whole number of seconds in `duration`. -/
theorem throughputPerSec_eq (implDep throughput duration : Int)
    (h1 : 0 < throughput) (h2 : throughput < 2 ^ 53)
    (h3 : Second ≤ duration) (h4 : duration < 2 ^ 63) :
    throughputPerSec implDep throughput duration
      = Int.tdiv throughput (Int.tdiv duration Second) := by
  have hsec : Int.tdiv duration Second = duration / 1000000000 := by
    unfold Second
    rw [Int.tdiv_eq_ediv (by unfold Second at h3; omega) (by norm_num)]
  have hs1 : 0 < Int.tdiv duration Second := by
    rw [hsec]; unfold Second at h3; omega
  have hs2 : Int.tdiv duration Second < 2 ^ 53 := by
    rw [hsec]; omega
  unfold throughputPerSec
  simp only
  generalize Int.tdiv duration Second = secs at hs1 hs2 ⊢
  rw [if_neg (by omega)]
  have hq := F64_div_trunc throughput.toNat secs.toNat
    (by omega) (by omega) (by omega) (by omega)
  rw [hq]
  have hlt : throughput.toNat / secs.toNat < 2 ^ 63 := by
    have := Nat.div_le_self throughput.toNat secs.toNat
    omega
  rw [if_pos hlt]
  rw [Int.tdiv_eq_ediv (by omega) (by omega)]
  have e1 : ((throughput.toNat : Nat) : Int) = throughput := Int.toNat_of_nonneg (by omega)
  have e2 : ((secs.toNat : Nat) : Int) = secs := Int.toNat_of_nonneg (by omega)
  rw [Int.ofNat_ediv, e1, e2]

/-- The throttle of a limiter built with a duration of at least one second
and a throughput below `2 ^ 52`: rate and burst are both twice the integer
quotient of `throughput` by the whole number of seconds in `duration`. -/
theorem NewCounterRateLimiter_throttle (implDep : Int) (sha : String) (client : Client)
    (key : String) (duration throughput batchSize : Int) (r : CounterLimiter)
    (loaded : Bool)
    (hnew : NewCounterRateLimiter implDep sha client key duration throughput batchSize
      = .limiter r loaded)
    (h1 : Second ≤ duration) (h2 : duration < 2 ^ 63) (h3 : throughput < 2 ^ 52) :
    r.limit = 2 * Int.tdiv throughput (Int.tdiv duration Second) ∧
    r.burst = 2 * Int.tdiv throughput (Int.tdiv duration Second) := by
  have hpos : 0 < throughput := by
    simp only [NewCounterRateLimiter] at hnew
    split at hnew
    · cases hnew
    · split at hnew
      · cases hnew
      · split at hnew
        · cases hnew
        · rename_i h
          exact not_le.mp h
  have htps := throughputPerSec_eq implDep throughput duration hpos (by omega) h1 h2
  have hq0 : 0 ≤ Int.tdiv throughput (Int.tdiv duration Second) := by
    apply Int.tdiv_nonneg (by omega)
    apply Int.tdiv_nonneg (by unfold Second at h1; omega)
    unfold Second; norm_num
  have hq1 : Int.tdiv throughput (Int.tdiv duration Second) ≤ throughput := by
    have hs : 0 ≤ Int.tdiv duration Second := by
      apply Int.tdiv_nonneg (by unfold Second at h1; omega)
      unfold Second; norm_num
    rw [Int.tdiv_eq_ediv (by omega) hs]
    exact Int.ediv_le_self _ (by omega)
  have hw : wrap64 (Int.tdiv throughput (Int.tdiv duration Second) * 2)
      = 2 * Int.tdiv throughput (Int.tdiv duration Second) := by
    rw [wrap64_id _ (by omega) (by omega)]
    ring
  simp only [NewCounterRateLimiter] at hnew
  split at hnew
  · cases hnew
  · split at hnew
    · cases hnew
    · split at hnew
      · cases hnew
      · split at hnew
        · cases hnew
        · split at hnew
          · cases hnew
          · injection hnew with hr _
            subst hr
            simp only [htps, hw]
            exact ⟨f64OfInt_exact _ (by omega) (by omega), trivial⟩

/-- C1: with a client that answers `Ping` but whose `ScriptExists` reply is
empty, and valid `duration`, `throughput` and `batchSize`, the constructor
runs into the index-out-of-range panic of `Val()[0]`: it returns neither a
limiter nor an error. -/
theorem C1_valid_input_without_script_reply :
    NewCounterRateLimiter 0 "sha" { ping := .ok "PONG", scriptExists := [] }
      "key:count" Second 1 1 = .indexOutOfRange := by
  decide

/-- C9: for one permit per two seconds the throttle is created with rate 0
and burst 0, and for 100 permits per 1.5 seconds with rate 200 and burst
200, on every platform. -/
theorem C9_throttle_sizing_at_samples (implDep : Int) :
    NewCounterRateLimiter implDep "sha" sampleClient "key:count" (2 * Second) 1 1
      = .limiter
          { key := "key:count", scriptSHA1 := "sha", interval := 2 * Second,
            duration := 2 * Second, throughput := 1, batchSize := 1,
            N := 0, AntiDDoS := true, limit := 0, burst := 0 } false ∧
    NewCounterRateLimiter implDep "sha" sampleClient "key:count" (1500 * Millisecond) 100 1
      = .limiter
          { key := "key:count", scriptSHA1 := "sha", interval := 15 * Millisecond,
            duration := 1500 * Millisecond, throughput := 100, batchSize := 1,
            N := 0, AntiDDoS := true, limit := 200, burst := 200 } false := by
  constructor
  · rw [NewCounterRateLimiter_ok implDep "sha" sampleClient "key:count" (2 * Second) 1 1
      "PONG" rfl (by decide) (by decide) (by decide) true [] rfl]
    have h : throughputPerSec implDep 1 (2 * Second) = 0 := by
      simp only [throughputPerSec]
      rw [if_neg (by decide), if_pos (by decide)]
      decide
    rw [h]
    decide
  · rw [NewCounterRateLimiter_ok implDep "sha" sampleClient "key:count"
      (1500 * Millisecond) 100 1
      "PONG" rfl (by decide) (by decide) (by decide) true [] rfl]
    have h : throughputPerSec implDep 100 (1500 * Millisecond) = 100 := by
      simp only [throughputPerSec]
      rw [if_neg (by decide), if_pos (by decide)]
      decide
    rw [h]
    decide

/-! ## `Wait` -/

/-- A `Take` that returns an error returns false and leaves the limiter as
it was. -/
theorem Take_error_false (r : CounterLimiter) (env : TakeEnv) (e : Err)
    (h : (Take r env).1.err = some e) :
    (Take r env).1.ok = false ∧ (Take r env).2 = r := by
  by_cases hp : passes r env
  · by_cases hN : 0 < r.N
    · rw [Take_local r env hp hN] at h
      simp at h
    · have hN2 : r.N ≤ 0 := not_lt.mp hN
      cases hs : env.evalSha with
      | error e2 =>
        rw [Take_failed r env e2 hp hN2 hs]
        exact ⟨rfl, rfl⟩
      | ok x =>
        rw [Take_refill r env x hp hN2 hs] at h
        simp at h
  · have hA : r.AntiDDoS = true := by
      by_contra h; exact hp (Or.inl (by simpa using h))
    have hd : env.allow = false := by
      by_contra h; exact hp (Or.inr (by simpa using h))
    rw [Take_denied r env hA hd] at h
    simp at h

theorem Take_frame (r : CounterLimiter) (env : TakeEnv) :
    (Take r env).2 = { r with N := (Take r env).2.N } := by
  by_cases hp : passes r env
  · by_cases hN : 0 < r.N
    · rw [Take_local r env hp hN]
    · have hN2 : r.N ≤ 0 := not_lt.mp hN
      cases hs : env.evalSha with
      | error e => rw [Take_failed r env e hp hN2 hs]
      | ok x => rw [Take_refill r env x hp hN2 hs]
  · have hA : r.AntiDDoS = true := by
      by_contra h; exact hp (Or.inl (by simpa using h))
    have hd : env.allow = false := by
      by_contra h; exact hp (Or.inr (by simpa using h))
    rw [Take_denied r env hA hd]

theorem Take_interval (r : CounterLimiter) (env : TakeEnv) :
    (Take r env).2.interval = r.interval := by
  rw [Take_frame r env]

/-- The permits a `Take` removes from the local count: one when it returns
true, none otherwise. -/
theorem Take_permits (r : CounterLimiter) (env : TakeEnv) :
    (match (Take r env).1.trip with
      | some (.ok x) => x
      | _ => r.N) - (Take r env).2.N = if (Take r env).1.ok then 1 else 0 := by
  by_cases hp : passes r env
  · by_cases hN : 0 < r.N
    · rw [Take_local r env hp hN]
      simp
    · have hN2 : r.N ≤ 0 := not_lt.mp hN
      cases hs : env.evalSha with
      | error e =>
        rw [Take_failed r env e hp hN2 hs]
        simp
      | ok x =>
        rw [Take_refill r env x hp hN2 hs]
        by_cases hx : 0 < x <;> simp [hx]
  · have hA : r.AntiDDoS = true := by
      by_contra h; exact hp (Or.inl (by simpa using h))
    have hd : env.allow = false := by
      by_contra h; exact hp (Or.inr (by simpa using h))
    rw [Take_denied r env hA hd]
    simp

theorem shaped_cons (t : TakeRec) (o : WaitOut) (ht : t.denied) (ho : o.shaped) :
    WaitOut.shaped { ret := o.ret, takes := t :: o.takes, final := o.final } := by
  rcases ho with ⟨h1, h2⟩ | ⟨earlier, last, h1, h2, h3⟩
  · left
    refine ⟨h1, ?_⟩
    intro u hu
    rcases List.mem_cons.mp hu with rfl | hu
    · exact ht
    · exact h2 u hu
  · right
    refine ⟨t :: earlier, last, by simp [h1], ?_, h3⟩
    intro u hu
    rcases List.mem_cons.mp hu with rfl | hu
    · exact ht
    · exact h2 u hu

theorem shaped_single_error (r : CounterLimiter) (env : TakeEnv) (e : Err)
    (h : (Take r env).1.err = some e) :
    WaitOut.shaped { ret := some (some e), takes := [⟨r, (Take r env).1, (Take r env).2⟩],
                     final := (Take r env).2 } :=
  Or.inr ⟨[], ⟨r, (Take r env).1, (Take r env).2⟩, rfl, by simp, Or.inr ⟨e, rfl, h⟩⟩

theorem shaped_single_granted (r : CounterLimiter) (env : TakeEnv)
    (h1 : (Take r env).1.err = none) (h2 : (Take r env).1.ok = true) :
    WaitOut.shaped { ret := some none, takes := [⟨r, (Take r env).1, (Take r env).2⟩],
                     final := (Take r env).2 } :=
  Or.inr ⟨[], ⟨r, (Take r env).1, (Take r env).2⟩, rfl, by simp, Or.inl ⟨rfl, h2, h1⟩⟩

theorem waitLoop_shaped (evs : List WaitEvent) :
    ∀ r : CounterLimiter, (waitLoop r evs).shaped := by
  induction evs with
  | nil => intro r; exact Or.inl ⟨by simp [waitLoop], by simp [waitLoop]⟩
  | cons ev rest ih =>
    intro r
    cases ev with
    | done => exact Or.inl ⟨by simp [waitLoop], by simp [waitLoop]⟩
    | timer env =>
      simp only [waitLoop]
      cases herr : (Take r env).1.err with
      | some e => exact shaped_single_error r env e herr
      | none =>
        by_cases hok : (Take r env).1.ok = true
        · simp only [hok, if_true]
          exact shaped_single_granted r env herr hok
        · simp only [hok]
          exact shaped_cons _ _ ⟨by simpa using hok, herr⟩ (ih _)

theorem Wait_shaped (r : CounterLimiter) (env : WaitEnv) : (Wait r env).shaped := by
  simp only [Wait]
  cases herr : (Take r env.first).1.err with
  | some e => exact shaped_single_error r env.first e herr
  | none =>
    by_cases hok : (Take r env.first).1.ok = true
    · simp only [hok, if_true]
      exact shaped_single_granted r env.first herr hok
    · simp only [hok]
      have hden : TakeRec.denied ⟨r, (Take r env.first).1, (Take r env.first).2⟩ :=
        ⟨by simpa using hok, herr⟩
      cases hdl : deadlineCheck env.deadline env.now (Take r env.first).2.interval with
      | some e =>
        refine Or.inl ⟨by simp, ?_⟩
        intro u hu
        rcases List.mem_singleton.mp hu with rfl
        exact hden
      | none => exact shaped_cons _ _ hden (waitLoop_shaped _ _)

theorem mem_or_last {α : Type} (pre post earlier : List α) (t last : α)
    (h : pre ++ t :: post = earlier ++ [last]) :
    t ∈ earlier ∨ (post = [] ∧ t = last) := by
  rcases List.eq_nil_or_concat post with hp | ⟨post2, z, hp⟩
  · subst hp
    right
    have h2 := List.append_inj' h rfl
    exact ⟨rfl, by simpa using h2.2⟩
  · subst hp
    left
    have h3 : (pre ++ t :: post2) ++ [z] = earlier ++ [last] := by
      rw [← h]; simp
    have h2 := List.append_inj' h3 rfl
    rw [← h2.1]
    simp

theorem waitLoop_permits (evs : List WaitEvent) :
    ∀ r : CounterLimiter,
      permitsTaken (waitLoop r evs).takes
        = if (waitLoop r evs).ret = some none then 1 else 0 := by
  induction evs with
  | nil => intro r; simp [waitLoop, permitsTaken]
  | cons ev rest ih =>
    intro r
    cases ev with
    | done => simp [waitLoop, permitsTaken]
    | timer env =>
      have hperm := Take_permits r env
      simp only [waitLoop]
      cases herr : (Take r env).1.err with
      | some e =>
        have hok : (Take r env).1.ok = false := (Take_error_false r env e herr).1
        simp only [permitsTaken]
        rw [hperm, hok]
        simp
      | none =>
        by_cases hok : (Take r env).1.ok = true
        · simp only [hok, if_true, permitsTaken]
          rw [hperm, hok]
          simp
        · simp only [hok, permitsTaken]
          rw [hperm, ih]
          simp [hok]

theorem waitLoop_done (pre post : List WaitEvent) :
    ∀ r : CounterLimiter, (waitLoop r pre).ret = none →
      waitLoop r (pre ++ WaitEvent.done :: post)
        = { ret := some (some (Err.new "context timeout")),
            takes := (waitLoop r pre).takes, final := (waitLoop r pre).final } := by
  induction pre with
  | nil => intro r _; simp [waitLoop]
  | cons ev rest ih =>
    intro r h
    cases ev with
    | done => simp [waitLoop] at h
    | timer env =>
      rw [List.cons_append]
      cases herr : (Take r env).1.err with
      | some e => simp [waitLoop, herr] at h
      | none =>
        cases hok : (Take r env).1.ok with
        | true => simp [waitLoop, herr, hok] at h
        | false =>
          simp only [waitLoop, herr, hok, Bool.false_eq_true, if_false] at h ⊢
          rw [ih _ h]

theorem waitLoop_returns (evs : List WaitEvent) :
    ∀ r : CounterLimiter, WaitEvent.done ∈ evs → (waitLoop r evs).ret.isSome = true := by
  induction evs with
  | nil => intro r h; simp at h
  | cons ev rest ih =>
    intro r h
    cases ev with
    | done => simp [waitLoop]
    | timer env =>
      have h2 : WaitEvent.done ∈ rest := by
        rcases List.mem_cons.mp h with h | h
        · cases h
        · exact h
      simp only [waitLoop]
      cases herr : (Take r env).1.err with
      | some e => simp
      | none =>
        by_cases hok : (Take r env).1.ok = true
        · simp [hok]
        · simp only [hok]
          exact ih _ h2

theorem Wait_permits (r : CounterLimiter) (env : WaitEnv) :
    permitsTaken (Wait r env).takes = if (Wait r env).ret = some none then 1 else 0 := by
  have hperm := Take_permits r env.first
  simp only [Wait]
  cases herr : (Take r env.first).1.err with
  | some e =>
    have hok : (Take r env.first).1.ok = false := (Take_error_false r env.first e herr).1
    simp only [permitsTaken]
    rw [hperm, hok]
    simp
  | none =>
    by_cases hok : (Take r env.first).1.ok = true
    · simp only [hok, if_true, permitsTaken]
      rw [hperm, hok]
      simp
    · simp only [hok]
      cases hdl : deadlineCheck env.deadline env.now (Take r env.first).2.interval with
      | some e =>
        simp only [permitsTaken]
        rw [hperm]
        simp [hok]
      | none =>
        simp only [permitsTaken]
        rw [hperm, waitLoop_permits]
        simp [hok]

theorem waitLoop_linked (evs : List WaitEvent) :
    ∀ r : CounterLimiter, linked r (waitLoop r evs).takes (waitLoop r evs).final := by
  induction evs with
  | nil => intro r; exact rfl
  | cons ev rest ih =>
    intro r
    cases ev with
    | done => exact rfl
    | timer env =>
      cases herr : (Take r env).1.err with
      | some e =>
        simp only [waitLoop, herr]
        exact ⟨⟨env, rfl, rfl, rfl⟩, rfl⟩
      | none =>
        cases hok : (Take r env).1.ok with
        | true =>
          simp only [waitLoop, herr, hok, if_true]
          exact ⟨⟨env, rfl, rfl, rfl⟩, rfl⟩
        | false =>
          simp only [waitLoop, herr, hok, Bool.false_eq_true, if_false]
          exact ⟨⟨env, rfl, rfl, rfl⟩, ih _⟩

theorem Wait_linked (r : CounterLimiter) (env : WaitEnv) :
    linked r (Wait r env).takes (Wait r env).final := by
  cases herr : (Take r env.first).1.err with
  | some e =>
    simp only [Wait, herr]
    exact ⟨⟨env.first, rfl, rfl, rfl⟩, rfl⟩
  | none =>
    cases hok : (Take r env.first).1.ok with
    | true =>
      simp only [Wait, herr, hok, if_true]
      exact ⟨⟨env.first, rfl, rfl, rfl⟩, rfl⟩
    | false =>
      cases hdl : deadlineCheck env.deadline env.now (Take r env.first).2.interval with
      | some e =>
        simp only [Wait, herr, hok, hdl, Bool.false_eq_true, if_false]
        exact ⟨⟨env.first, rfl, rfl, rfl⟩, rfl⟩
      | none =>
        simp only [Wait, herr, hok, hdl, Bool.false_eq_true, if_false]
        exact ⟨⟨env.first, rfl, rfl, rfl⟩, waitLoop_linked _ _⟩

theorem Wait_done (r : CounterLimiter) (first : TakeEnv) (deadline : Option Int)
    (now : Int) (pre post : List WaitEvent)
    (h : (Wait r ⟨first, deadline, now, pre⟩).ret = none) :
    Wait r ⟨first, deadline, now, pre ++ WaitEvent.done :: post⟩
      = { ret := some (some (Err.new "context timeout")),
          takes := (Wait r ⟨first, deadline, now, pre⟩).takes,
          final := (Wait r ⟨first, deadline, now, pre⟩).final } := by
  cases herr : (Take r first).1.err with
  | some e => simp [Wait, herr] at h
  | none =>
    cases hok : (Take r first).1.ok with
    | true => simp [Wait, herr, hok] at h
    | false =>
      cases hdl : deadlineCheck deadline now (Take r first).2.interval with
      | some e => simp [Wait, herr, hok, hdl] at h
      | none =>
        simp only [Wait, herr, hok, hdl, Bool.false_eq_true, if_false] at h ⊢
        rw [waitLoop_done pre post _ h]

theorem Wait_returns (r : CounterLimiter) (env : WaitEnv)
    (h : WaitEvent.done ∈ env.events) : (Wait r env).ret.isSome = true := by
  simp only [Wait]
  cases herr : (Take r env.first).1.err with
  | some e => simp
  | none =>
    by_cases hok : (Take r env.first).1.ok = true
    · simp [hok]
    · simp only [hok]
      cases hdl : deadlineCheck env.deadline env.now (Take r env.first).2.interval with
      | some e => simp
      | none => exact waitLoop_returns _ _ h

/-- C8 as stated fails: on an empty limiter whose context deadline (5) is
earlier than now + interval (10 + one second), `Wait` first runs `Take`,
which makes a store round trip and is granted a permit, and `Wait` returns
`nil` rather than the deadline error. -/
theorem C8_counterexample :
    (5 : Int) < 10 + (sampleLimiter 0 false 2).interval ∧
    (Wait (sampleLimiter 0 false 2) ⟨⟨true, .ok 1⟩, some 5, 10, []⟩).ret = some none ∧
    (Wait (sampleLimiter 0 false 2) ⟨⟨true, .ok 1⟩, some 5, 10, []⟩).takes.map
        (fun t => t.out.call)
      = [some (evalShaCall (sampleLimiter 0 false 2))] := by
  decide

/-- C8, amended: when the context's deadline is earlier than now + interval,
`Wait` performs exactly one `Take`, its initial attempt, and never polls: it
returns the deadline error if that `Take` returned `(false, nil)`, `nil` if
it was granted a permit, and the `Take`'s error if it failed.  The store is
contacted only as that one `Take` contacts it. -/
theorem C8_deadline_fast_fail (r : CounterLimiter) (env : WaitEnv) (d : Int)
    (hd : env.deadline = some d) (hlt : d < env.now + r.interval) :
    (Wait r env).takes = [⟨r, (Take r env.first).1, (Take r env.first).2⟩] ∧
    (Wait r env).final = (Take r env.first).2 ∧
    ((Take r env.first).1.ok = false → (Take r env.first).1.err = none →
      (Wait r env).ret = some (some (Err.errorf d))) ∧
    ((Take r env.first).1.ok = true → (Take r env.first).1.err = none →
      (Wait r env).ret = some none) ∧
    (∀ e, (Take r env.first).1.err = some e → (Wait r env).ret = some (some e)) := by
  have hdl : deadlineCheck env.deadline env.now (Take r env.first).2.interval
      = some (Err.errorf d) := by
    rw [Take_interval, hd]
    simp [deadlineCheck, hlt]
  cases herr : (Take r env.first).1.err with
  | some e =>
    simp only [Wait, herr]
    simp
  | none =>
    cases hok : (Take r env.first).1.ok with
    | true =>
      simp only [Wait, herr, hok, if_true]
      simp
    | false =>
      simp only [Wait, herr, hok, hdl, Bool.false_eq_true, if_false]
      simp

/-- C8, amended, at an empty limiter whose store has nothing to give. -/
theorem C8_deadline_fast_fail_witness :
    (Wait (sampleLimiter 0 false 2)
      ⟨⟨true, .ok 0⟩, some 5, 10, [.timer ⟨true, .ok 1⟩]⟩).ret
      = some (some (Err.errorf 5)) :=
  (C8_deadline_fast_fail (sampleLimiter 0 false 2)
    ⟨⟨true, .ok 0⟩, some 5, 10, [.timer ⟨true, .ok 1⟩]⟩ 5 rfl (by decide)).2.2.1
    (by decide) (by decide)

/-- C10: `Wait` returns `nil` exactly when the last `Take` it performed
returned `(true, nil)` and every earlier one returned `(false, nil)`; the
`Take`s of a run remove one permit from the local count when `Wait` returns
`nil` and none otherwise; the recorded `Take`s are successive calls of `Take`
on the limiter, leading from the initial to the final one; a `Take` that
returns an error is the last one and `Wait` returns that error; when the
loop observes cancellation, `Wait` returns the non-nil "context timeout"
error without another `Take`; and a run whose events include a cancellation
does return. -/
theorem C10_wait_reports_only_obtained_permits (r : CounterLimiter) (env : WaitEnv) :
    ((Wait r env).ret = some none ↔
      ∃ earlier last, (Wait r env).takes = earlier ++ [last] ∧ last.granted ∧
        ∀ t ∈ earlier, t.denied) ∧
    (permitsTaken (Wait r env).takes = if (Wait r env).ret = some none then 1 else 0) ∧
    linked r (Wait r env).takes (Wait r env).final ∧
    (∀ pre t post e, (Wait r env).takes = pre ++ t :: post → t.out.err = some e →
      (Wait r env).ret = some (some e) ∧ post = []) ∧
    (∀ pre post, env.events = pre ++ WaitEvent.done :: post →
      (Wait r ⟨env.first, env.deadline, env.now, pre⟩).ret = none →
      (Wait r env).ret = some (some (Err.new "context timeout")) ∧
      (Wait r env).takes = (Wait r ⟨env.first, env.deadline, env.now, pre⟩).takes ∧
      (Wait r env).final = (Wait r ⟨env.first, env.deadline, env.now, pre⟩).final) ∧
    (WaitEvent.done ∈ env.events → (Wait r env).ret.isSome = true) := by
  have hs := Wait_shaped r env
  refine ⟨?_, Wait_permits r env, Wait_linked r env, ?_, ?_, Wait_returns r env⟩
  · constructor
    · intro hret
      rcases hs with ⟨h1, _⟩ | ⟨earlier, last, h1, h2, h3⟩
      · exact absurd hret h1
      · rcases h3 with ⟨_, hg⟩ | ⟨e, he, _⟩
        · exact ⟨earlier, last, h1, hg, h2⟩
        · rw [hret] at he; cases he
    · rintro ⟨earlier, last, h1, hg, h2⟩
      rcases hs with ⟨_, hall⟩ | ⟨earlier2, last2, h1b, _, h3⟩
      · have hmem : last ∈ (Wait r env).takes := by rw [h1]; simp
        have hd1 : last.out.ok = false := (hall last hmem).1
        have hg1 : last.out.ok = true := hg.1
        rw [hg1] at hd1
        cases hd1
      · have heq := List.append_inj' (h1.symm.trans h1b) rfl
        have hl : last = last2 := by simpa using heq.2
        subst hl
        rcases h3 with ⟨hret, _⟩ | ⟨e, _, he⟩
        · exact hret
        · have hg2 : last.out.err = none := hg.2
          rw [hg2] at he; cases he
  · intro pre t post e htakes hterr
    rcases hs with ⟨_, hall⟩ | ⟨earlier, last, h1, h2, h3⟩
    · have hmem : t ∈ (Wait r env).takes := by rw [htakes]; simp
      have hd2 : t.out.err = none := (hall t hmem).2
      rw [hd2] at hterr
      cases hterr
    · rcases mem_or_last pre post earlier t last (htakes.symm.trans h1) with hmem | ⟨hp, hl⟩
      · have hd2 : t.out.err = none := (h2 t hmem).2
        rw [hd2] at hterr
        cases hterr
      · subst hl
        rcases h3 with ⟨_, hg⟩ | ⟨e2, hret, he2⟩
        · have hg2 : t.out.err = none := hg.2
          rw [hg2] at hterr; cases hterr
        · rw [hterr] at he2
          injection he2 with he2
          subst he2
          exact ⟨hret, hp⟩
  · intro pre post hev hblocked
    have hw : env = ⟨env.first, env.deadline, env.now, pre ++ WaitEvent.done :: post⟩ := by
      cases env
      simp only at hev
      rw [hev]
    rw [hw, Wait_done r env.first env.deadline env.now pre post hblocked]
    exact ⟨rfl, rfl, rfl⟩

/-- C10 at a run that is denied once, then cancelled. -/
theorem C10_wait_reports_only_obtained_permits_witness :
    (Wait (sampleLimiter 0 true 2)
      ⟨⟨false, .ok 2⟩, none, 0, [.timer ⟨false, .ok 2⟩, .done, .timer ⟨true, .ok 2⟩]⟩).ret
      = some (some (Err.new "context timeout")) ∧
    (Wait (sampleLimiter 0 true 2)
      ⟨⟨false, .ok 2⟩, none, 0,
        [.timer ⟨false, .ok 2⟩, .done, .timer ⟨true, .ok 2⟩]⟩).ret.isSome = true :=
  ⟨((C10_wait_reports_only_obtained_permits (sampleLimiter 0 true 2)
      ⟨⟨false, .ok 2⟩, none, 0,
        [.timer ⟨false, .ok 2⟩, .done, .timer ⟨true, .ok 2⟩]⟩).2.2.2.2.1
      [.timer ⟨false, .ok 2⟩] [.timer ⟨true, .ok 2⟩] rfl (by decide)).1,
   (C10_wait_reports_only_obtained_permits (sampleLimiter 0 true 2)
      ⟨⟨false, .ok 2⟩, none, 0,
        [.timer ⟨false, .ok 2⟩, .done, .timer ⟨true, .ok 2⟩]⟩).2.2.2.2.2
      (by simp)⟩

/-! ## Non-negativity of the local count -/

theorem Take_nonneg (r : CounterLimiter) (env : TakeEnv)
    (hN : 0 ≤ r.N) (htrip : (Take r env).1.tripNonneg) :
    ∀ s ∈ takeStates ⟨r, (Take r env).1, (Take r env).2⟩, 0 ≤ s.N := by
  by_cases hp : passes r env
  · by_cases hpos : 0 < r.N
    · rw [Take_local r env hp hpos]
      simp [takeStates]
      omega
    · have hN2 : r.N ≤ 0 := not_lt.mp hpos
      cases hs : env.evalSha with
      | error e =>
        rw [Take_failed r env e hp hN2 hs]
        simpa [takeStates] using hN
      | ok x =>
        rw [Take_refill r env x hp hN2 hs] at htrip ⊢
        have hx : 0 ≤ x := htrip x rfl
        simp only [takeStates, setN]
        intro s hs2
        simp only [List.mem_cons, List.mem_singleton, List.not_mem_nil, or_false] at hs2
        rcases hs2 with rfl | rfl
        · exact hx
        · show 0 ≤ (if 0 < x then x - 1 else x)
          split <;> omega
  · have hA : r.AntiDDoS = true := by
      by_contra h; exact hp (Or.inl (by simpa using h))
    have hd : env.allow = false := by
      by_contra h; exact hp (Or.inr (by simpa using h))
    rw [Take_denied r env hA hd]
    simpa [takeStates] using hN

theorem post_mem_takeStates (t : TakeRec) : t.post ∈ takeStates t := by
  unfold takeStates
  split <;> simp

theorem Take_post_nonneg (r : CounterLimiter) (env : TakeEnv)
    (hN : 0 ≤ r.N) (htrip : (Take r env).1.tripNonneg) : 0 ≤ (Take r env).2.N :=
  Take_nonneg r env hN htrip _ (post_mem_takeStates ⟨r, (Take r env).1, (Take r env).2⟩)

theorem waitLoop_nonneg (evs : List WaitEvent) :
    ∀ r : CounterLimiter, 0 ≤ r.N →
      (∀ t ∈ (waitLoop r evs).takes, t.out.tripNonneg) →
      0 ≤ (waitLoop r evs).final.N ∧
      ∀ t ∈ (waitLoop r evs).takes, ∀ s ∈ takeStates t, 0 ≤ s.N := by
  induction evs with
  | nil => intro r hN _; simpa [waitLoop] using hN
  | cons ev rest ih =>
    intro r hN htrips
    cases ev with
    | done => simpa [waitLoop] using hN
    | timer env =>
      cases herr : (Take r env).1.err with
      | some e =>
        simp only [waitLoop, herr] at htrips ⊢
        have htrip : (Take r env).1.tripNonneg := htrips ⟨r, (Take r env).1, (Take r env).2⟩ (by simp)
        refine ⟨Take_post_nonneg r env hN htrip, ?_⟩
        intro t ht
        rcases List.mem_singleton.mp ht with rfl
        exact Take_nonneg r env hN htrip
      | none =>
        cases hok : (Take r env).1.ok with
        | true =>
          simp only [waitLoop, herr, hok, if_true] at htrips ⊢
          have htrip : (Take r env).1.tripNonneg := htrips ⟨r, (Take r env).1, (Take r env).2⟩ (by simp)
          refine ⟨Take_post_nonneg r env hN htrip, ?_⟩
          intro t ht
          rcases List.mem_singleton.mp ht with rfl
          exact Take_nonneg r env hN htrip
        | false =>
          simp only [waitLoop, herr, hok, Bool.false_eq_true, if_false] at htrips ⊢
          have htrip : (Take r env).1.tripNonneg := htrips ⟨r, (Take r env).1, (Take r env).2⟩ (by simp)
          have h3 := ih _ (Take_post_nonneg r env hN htrip)
            (fun t ht => htrips t (List.mem_cons_of_mem _ ht))
          refine ⟨h3.1, ?_⟩
          intro t ht
          rcases List.mem_cons.mp ht with rfl | ht
          · exact Take_nonneg r env hN htrip
          · exact h3.2 t ht

theorem Wait_nonneg (r : CounterLimiter) (env : WaitEnv) (hN : 0 ≤ r.N)
    (htrips : ∀ t ∈ (Wait r env).takes, t.out.tripNonneg) :
    0 ≤ (Wait r env).final.N ∧
    ∀ t ∈ (Wait r env).takes, ∀ s ∈ takeStates t, 0 ≤ s.N := by
  cases herr : (Take r env.first).1.err with
  | some e =>
    simp only [Wait, herr] at htrips ⊢
    have htrip : (Take r env.first).1.tripNonneg := htrips ⟨r, (Take r env.first).1, (Take r env.first).2⟩ (by simp)
    refine ⟨Take_post_nonneg r env.first hN htrip, ?_⟩
    intro t ht
    rcases List.mem_singleton.mp ht with rfl
    exact Take_nonneg r env.first hN htrip
  | none =>
    cases hok : (Take r env.first).1.ok with
    | true =>
      simp only [Wait, herr, hok, if_true] at htrips ⊢
      have htrip : (Take r env.first).1.tripNonneg := htrips ⟨r, (Take r env.first).1, (Take r env.first).2⟩ (by simp)
      refine ⟨Take_post_nonneg r env.first hN htrip, ?_⟩
      intro t ht
      rcases List.mem_singleton.mp ht with rfl
      exact Take_nonneg r env.first hN htrip
    | false =>
      cases hdl : deadlineCheck env.deadline env.now (Take r env.first).2.interval with
      | some e =>
        simp only [Wait, herr, hok, hdl, Bool.false_eq_true, if_false] at htrips ⊢
        have htrip : (Take r env.first).1.tripNonneg := htrips ⟨r, (Take r env.first).1, (Take r env.first).2⟩ (by simp)
        refine ⟨Take_post_nonneg r env.first hN htrip, ?_⟩
        intro t ht
        rcases List.mem_singleton.mp ht with rfl
        exact Take_nonneg r env.first hN htrip
      | none =>
        simp only [Wait, herr, hok, hdl, Bool.false_eq_true, if_false] at htrips ⊢
        have htrip : (Take r env.first).1.tripNonneg := htrips ⟨r, (Take r env.first).1, (Take r env.first).2⟩ (by simp)
        have h3 := waitLoop_nonneg env.events _ (Take_post_nonneg r env.first hN htrip)
          (fun t ht => htrips t (List.mem_cons_of_mem _ ht))
        refine ⟨h3.1, ?_⟩
        intro t ht
        rcases List.mem_cons.mp ht with rfl | ht
        · exact Take_nonneg r env.first hN htrip
        · exact h3.2 t ht

theorem step_nonneg (r : CounterLimiter) (op : Op) (hN : 0 ≤ r.N)
    (htrips : ∀ t ∈ opTakes r op, t.out.tripNonneg) :
    0 ≤ (step r op).N ∧ ∀ t ∈ opTakes r op, ∀ s ∈ takeStates t, 0 ≤ s.N := by
  cases op with
  | take env =>
    have htrip : (Take r env).1.tripNonneg := htrips ⟨r, (Take r env).1, (Take r env).2⟩ (by simp [opTakes])
    refine ⟨Take_post_nonneg r env hN htrip, ?_⟩
    intro t ht
    simp only [opTakes, List.mem_singleton] at ht
    subst ht
    exact Take_nonneg r env hN htrip
  | wait env => exact Wait_nonneg r env hN htrips
  | withAntiDDos b => exact ⟨hN, by simp [opTakes]⟩

theorem reached_nonneg (ops : List Op) :
    ∀ r : CounterLimiter, 0 ≤ r.N → (∀ t ∈ takesOf r ops, t.out.tripNonneg) →
      ∀ s ∈ reached r ops, 0 ≤ s.N := by
  induction ops with
  | nil =>
    intro r hN _ s hs
    simp only [reached, List.mem_singleton] at hs
    subst hs
    exact hN
  | cons op ops ih =>
    intro r hN htrips s hs
    simp only [takesOf, List.mem_append] at htrips
    have hst := step_nonneg r op hN (fun t ht => htrips t (Or.inl ht))
    simp only [reached, List.mem_cons, List.mem_append, List.mem_flatMap] at hs
    rcases hs with rfl | ⟨t, ht, hs⟩ | hs
    · exact hN
    · exact hst.2 t ht s hs
    · exact ih _ hst.1 (fun t ht => htrips t (Or.inr ht)) s hs

theorem run_mem_reached (ops : List Op) :
    ∀ r : CounterLimiter, run r ops ∈ reached r ops := by
  induction ops with
  | nil => intro r; simp [run, reached]
  | cons op ops ih =>
    intro r
    simp only [run, reached, List.mem_cons, List.mem_append]
    exact Or.inr (Or.inr (ih _))

/-- C6: starting from a freshly constructed limiter, during every finite
sequence of `Take`, `Wait` and `WithAntiDDos` calls, with any throttle
decisions, any timer expiries and cancellations and any store outcomes in
which each successful round trip returns a non-negative integer, the local
count is non-negative in every limiter value reached, the value between a
refill and the take that follows it included; the final limiter is one of
them. -/
theorem C6_local_count_nonneg (implDep : Int) (sha : String) (client : Client)
    (key : String) (duration throughput batchSize : Int) (r : CounterLimiter)
    (loaded : Bool) (ops : List Op)
    (hnew : NewCounterRateLimiter implDep sha client key duration throughput batchSize
      = .limiter r loaded)
    (hstore : ∀ t ∈ takesOf r ops, ∀ x, t.out.trip = some (.ok x) → 0 ≤ x) :
    (∀ s ∈ reached r ops, 0 ≤ s.N) ∧ run r ops ∈ reached r ops := by
  have hN : r.N = 0 :=
    (NewCounterRateLimiter_fresh implDep sha client key duration throughput batchSize
      r loaded hnew).1
  exact ⟨reached_nonneg ops r (by omega) hstore, run_mem_reached ops r⟩

/-- C6 at a limiter built for one permit per second, after a `Take`, a
`WithAntiDDos(false)` and a `Wait` that is granted on its second attempt. -/
theorem C6_local_count_nonneg_witness :
    0 ≤ (run (sampleLimiter 0 true 2)
      [.take ⟨true, .ok 1⟩, .withAntiDDos false,
       .wait ⟨⟨true, .ok 0⟩, none, 0, [.timer ⟨true, .ok 2⟩]⟩]).N :=
  have h := C6_local_count_nonneg 0 "sha" sampleClient "key:count" Second 1 2
    (sampleLimiter 0 true 2) false
    [.take ⟨true, .ok 1⟩, .withAntiDDos false,
     .wait ⟨⟨true, .ok 0⟩, none, 0, [.timer ⟨true, .ok 2⟩]⟩]
    (by decide)
    (by
      intro t ht x hx
      simp [takesOf, opTakes, step, Wait, waitLoop, deadlineCheck, Take, tryTakeFromLocal,
        setN, WithAntiDDos, sampleLimiter] at ht
      rcases ht with rfl | rfl | rfl <;> simp at hx <;> omega)
  h.1 _ h.2

/-! ## At most `batchSize` grants per refill -/

theorem stretchesFrom_bounded (B : Int) (envs : List TakeEnv) :
    ∀ (r : CounterLimiter) (cur : Stretch),
      (∀ t ∈ takeRun r envs, ∀ x, t.trip = some (.ok x) → 0 ≤ x ∧ x ≤ B) →
      0 ≤ r.N → (cur.grants : Int) + r.N ≤ cur.returned → cur.returned ≤ B →
      ∀ s ∈ stretchesFrom cur (takeRun r envs),
        (s.grants : Int) ≤ s.returned ∧ s.returned ≤ B := by
  induction envs with
  | nil =>
    intro r cur _ hN hcur hB s hs
    simp only [takeRun, stretchesFrom, List.mem_singleton] at hs
    subst hs
    exact ⟨by omega, hB⟩
  | cons env envs ih =>
    intro r cur htrips hN hcur hB s hs
    simp only [takeRun, List.mem_cons] at htrips
    have hrest : ∀ t ∈ takeRun (Take r env).2 envs,
        ∀ x, t.trip = some (.ok x) → 0 ≤ x ∧ x ≤ B :=
      fun t h => htrips t (Or.inr h)
    have hhead := htrips (Take r env).1 (Or.inl rfl)
    simp only [takeRun] at hs
    by_cases hp : passes r env
    · by_cases hpos : 0 < r.N
      · rw [Take_local r env hp hpos] at hs hrest
        simp only [stretchesFrom] at hs
        refine ih _ _ hrest ?_ ?_ ?_ s hs
        · show 0 ≤ r.N - 1
          omega
        · show ((cur.grants + grantOf _ : Nat) : Int) + (r.N - 1) ≤ cur.returned
          simp only [grantOf, if_true]
          push_cast
          omega
        · exact hB
      · have hN2 : r.N ≤ 0 := not_lt.mp hpos
        cases hsha : env.evalSha with
        | error e =>
          rw [Take_failed r env e hp hN2 hsha] at hs hrest
          simp only [stretchesFrom, List.mem_cons] at hs
          rcases hs with rfl | hs
          · exact ⟨by omega, hB⟩
          · refine ih _ _ hrest hN ?_ ?_ s hs
            · simp only [grantOf, Stretch.returned]
              simp
              omega
            · show (0 : Int) ≤ B
              have h0 : (0 : Int) ≤ cur.returned := by omega
              omega
        | ok x =>
          rw [Take_refill r env x hp hN2 hsha] at hs hrest hhead
          have hx := hhead x rfl
          simp only [stretchesFrom, List.mem_cons] at hs
          rcases hs with rfl | hs
          · exact ⟨by omega, hB⟩
          · refine ih _ _ hrest ?_ ?_ ?_ s hs
            · show 0 ≤ (if 0 < x then x - 1 else x)
              split <;> omega
            · show ((grantOf _ : Nat) : Int) + (if 0 < x then x - 1 else x) ≤ x
              simp only [grantOf]
              by_cases hx0 : 0 < x
              · simp [hx0]
              · simp [hx0]
            · exact hx.2
    · have hA : r.AntiDDoS = true := by
        by_contra h; exact hp (Or.inl (by simpa using h))
      have hd : env.allow = false := by
        by_contra h; exact hp (Or.inr (by simpa using h))
      rw [Take_denied r env hA hd] at hs hrest
      simp only [stretchesFrom] at hs
      refine ih _ _ hrest hN ?_ hB s hs
      simpa [grantOf, Stretch.returned] using hcur

theorem no_grant_before_refill (envs : List TakeEnv) :
    ∀ (r : CounterLimiter), r.N ≤ 0 →
      ∀ pre t post, takeRun r envs = pre ++ t :: post → t.ok = true →
        ∃ u ∈ pre ++ [t], ∃ x, u.trip = some (.ok x) := by
  induction envs with
  | nil =>
    intro r _ pre t post h _
    simp [takeRun] at h
  | cons env envs ih =>
    intro r hN pre t post h hok
    simp only [takeRun] at h
    have hcase : (∃ x, (Take r env).1.trip = some (.ok x)) ∨
        ((Take r env).1.ok = false ∧ (Take r env).2.N ≤ 0) := by
      by_cases hp : passes r env
      · cases hsha : env.evalSha with
        | error e =>
          rw [Take_failed r env e hp hN hsha]
          exact Or.inr ⟨rfl, hN⟩
        | ok x =>
          rw [Take_refill r env x hp hN hsha]
          exact Or.inl ⟨x, rfl⟩
      · have hA : r.AntiDDoS = true := by
          by_contra h; exact hp (Or.inl (by simpa using h))
        have hd : env.allow = false := by
          by_contra h; exact hp (Or.inr (by simpa using h))
        rw [Take_denied r env hA hd]
        exact Or.inr ⟨rfl, hN⟩
    cases pre with
    | nil =>
      simp only [List.nil_append, List.cons.injEq] at h
      rcases hcase with ⟨x, hx⟩ | ⟨hf, _⟩
      · exact ⟨t, by simp, x, by rw [← h.1]; exact hx⟩
      · rw [h.1, hok] at hf
        cases hf
    | cons p pre =>
      simp only [List.cons_append, List.cons.injEq] at h
      rcases hcase with ⟨x, hx⟩ | ⟨_, hN2⟩
      · exact ⟨p, by simp, x, by rw [← h.1]; exact hx⟩
      · obtain ⟨u, hu, hx⟩ := ih _ hN2 pre t post h.2 hok
        exact ⟨u, by simp only [List.cons_append, List.mem_cons]; exact Or.inr hu, hx⟩

/-- C7: in every sequential run of `Take` calls on a constructed limiter
whose successful round trips return values between 0 and `batchSize`, the
number of calls returning true in each stretch from one round trip to the
next (the refilling call included, the stretch after the last round trip
too) is at most the value that round trip returned, hence at most
`batchSize`; a stretch opened by a failed round trip, and the stretch before
the first round trip, contain no grant; and every call that returns true is
preceded by, or is itself, a call with a successful round trip. -/
theorem C7_at_most_batch_per_refill (implDep : Int) (sha : String) (client : Client)
    (key : String) (duration throughput batchSize : Int) (r : CounterLimiter)
    (loaded : Bool) (envs : List TakeEnv)
    (hnew : NewCounterRateLimiter implDep sha client key duration throughput batchSize
      = .limiter r loaded)
    (hstore : ∀ t ∈ takeRun r envs,
      ∀ x, t.trip = some (.ok x) → 0 ≤ x ∧ x ≤ r.batchSize) :
    (∀ s ∈ stretches (takeRun r envs),
      (s.grants : Int) ≤ s.returned ∧ s.returned ≤ r.batchSize) ∧
    (∀ pre t post, takeRun r envs = pre ++ t :: post → t.ok = true →
      ∃ u ∈ pre ++ [t], ∃ x, u.trip = some (.ok x)) := by
  have hf := NewCounterRateLimiter_fresh implDep sha client key duration throughput
    batchSize r loaded hnew
  have hN : r.N = 0 := hf.1
  have hB : 0 ≤ r.batchSize := by rw [hf.2.1]; omega
  constructor
  · refine stretchesFrom_bounded r.batchSize envs r ⟨none, 0⟩ hstore (by omega) ?_ ?_
    · show ((0 : Nat) : Int) + r.N ≤ 0
      simp [hN]
    · exact hB
  · exact no_grant_before_refill envs r (by omega)

/-- C7 at a limiter built for batches of 2: a refill of 2 followed by a
local grant. -/
theorem C7_at_most_batch_per_refill_witness :
    ((2 : Nat) : Int) ≤ Stretch.returned ⟨some (.ok 2), 2⟩ ∧
    Stretch.returned ⟨some (.ok 2), 2⟩ ≤ (sampleLimiter 0 true 2).batchSize :=
  (C7_at_most_batch_per_refill 0 "sha" sampleClient "key:count" Second 1 2
    (sampleLimiter 0 true 2) false
    [⟨true, .ok 2⟩, ⟨true, .error (Err.redis "EOF")⟩, ⟨false, .ok 2⟩, ⟨true, .ok 0⟩]
    (by decide)
    (by
      intro t ht x hx
      simp [takeRun, Take, tryTakeFromLocal, setN, sampleLimiter] at ht
      rcases ht with rfl | rfl | rfl | rfl <;> simp at hx <;>
        simp only [sampleLimiter] <;> omega)).1
    ⟨some (.ok 2), 2⟩
    (by simp [stretches, stretchesFrom, takeRun, Take, tryTakeFromLocal, setN, grantOf,
          sampleLimiter])

end Ratelimit
